import Mathlib

/-!
Shallow embedding of `write_local` (src/src/lib.rs): a write-coalescing
local-file sink.  Producers submit `(PathBuf, WriteData)` pairs over a
bounded flume channel; a single worker thread (`write_to_local`) drains the
channel, merges fragments per path into a `HashMap<PathBuf, WriteData>`,
and flushes every non-empty entry with one physical write, clearing the
buffer afterwards whether the write succeeded or failed.

Modelling choices:
* bytes are `List Nat` (`Vec<u8>` as a list of byte values);
* `PathBuf` is an opaque key with decidable equality, modelled as `Nat`;
* the `HashMap` is an association list (`Cache`); reachable caches have
  unique keys, and lemmas that need uniqueness take a `Nodup` hypothesis;
* physical I/O is an oracle `io : Path → WriteData → IoResult` giving the
  outcome of the single write attempt the worker makes for a path; the
  flush step records the attempt as a `WriteEvent` and clears the buffer
  independently of the oracle's answer, exactly as the Rust match does.
-/

namespace WriteLocal

abbrev Bytes := List Nat
abbrev Path := Nat

/-- `enum WriteData { Append(Vec<u8>), Override(Vec<u8>) }` -/
inductive WriteData where
  | append (buf : Bytes)
  | override (buf : Bytes)
deriving DecidableEq, Repr

/-- The byte buffer held by either variant. -/
def WriteData.buf : WriteData → Bytes
  | .append b => b
  | .override b => b

/-- The tag of a `WriteData` value. -/
inductive Variant where
  | append
  | override
deriving DecidableEq, Repr

def WriteData.variant : WriteData → Variant
  | .append _ => .append
  | .override _ => .override

/-- `WriteData::write`: an Append entry extends its buffer with the
incoming data, an Override entry replaces its buffer with it. -/
def WriteData.write : WriteData → Bytes → WriteData
  | .append l, data => .append (l ++ data)
  | .override _, data => .override data

/-- `WriteData::clear`: empty the buffer, keeping the variant. -/
def WriteData.clear : WriteData → WriteData
  | .append _ => .append []
  | .override _ => .override []

/-- `WriteData::len`. -/
def WriteData.len : WriteData → Nat
  | .append l => l.length
  | .override l => l.length

/-- `WriteData::is_empty`. -/
def WriteData.is_empty : WriteData → Bool
  | .append l => l.isEmpty
  | .override l => l.isEmpty

/-- The `cached: HashMap<PathBuf, WriteData>` of the worker, as an
association list owned exclusively by the worker loop. -/
abbrev Cache := List (Path × WriteData)

/-- `HashMap` lookup (first matching key). -/
def lookupC : Cache → Path → Option WriteData
  | [], _ => none
  | (q, e) :: rest, p => if q = p then some e else lookupC rest p

/-- Replace the value stored at an existing key, leaving other keys alone. -/
def updateC : Cache → Path → WriteData → Cache
  | [], _, _ => []
  | (q, e) :: rest, p, v =>
      if q = p then (q, v) :: rest else (q, e) :: updateC rest p v

/-- The `or_insert` default the worker supplies: an empty buffer of the
incoming fragment's own variant (`WriteData::Append(Vec::new())` or
`WriteData::Override(Vec::new())`). -/
def emptyOf : WriteData → WriteData
  | .append _ => .append []
  | .override _ => .override []

/-- One iteration of the merge loop of `write_to_local`: skip an empty
fragment with a warning; otherwise `cached.entry(f).or_insert(empty of the
fragment's variant).write(data)` — the write is dispatched on the variant
of the entry already in the map, not on the incoming fragment. -/
def mergeOne (cached : Cache) (f : Path) (d : WriteData) : Cache :=
  if d.is_empty then cached
  else
    match lookupC cached f with
    | some e => updateC cached f (e.write d.buf)
    | none => cached ++ [(f, (emptyOf d).write d.buf)]

/-- The whole merge loop: fold `mergeOne` over the drained requests in
drain order (`for (f, d) in tmp.drain(..)`). -/
def mergeAll (cached : Cache) (tmp : List (Path × WriteData)) : Cache :=
  tmp.foldl (fun c fd => mergeOne c fd.1 fd.2) cached

/-- Outcome of one physical write attempt: `Ok(n)` with the byte count the
file-system call reported, or an I/O error. -/
inductive IoResult where
  | success (bytesWritten : Nat)
  | failure (msg : String)
deriving DecidableEq, Repr

/-- A recorded physical write attempt: the path, the bytes handed to the
file-system call, and its outcome. -/
structure WriteEvent where
  path : Path
  data : Bytes
  result : IoResult
deriving DecidableEq, Repr

/-- The flush loop of `write_to_local` (`for (f, data) in cached.iter_mut()`):
skip entries with an empty buffer; for the rest perform the single write
attempt (its outcome given by the oracle `io`) and then `data.clear()` —
the clear happens on both the `Ok` and the `Err` arm alike.  Returns the
map after the loop and the list of attempts performed. -/
def flushStep (io : Path → WriteData → IoResult) :
    Cache → Cache × List WriteEvent
  | [] => ([], [])
  | (f, d) :: rest =>
      let r := flushStep io rest
      if d.is_empty then ((f, d) :: r.1, r.2)
      else ((f, d.clear) :: r.1, ⟨f, d.buf, io f d⟩ :: r.2)

/-- One full worker cycle after the debounce sleep: merge everything that
was drained, then flush. -/
def cycle (io : Path → WriteData → IoResult) (cached : Cache)
    (tmp : List (Path × WriteData)) : Cache × List WriteEvent :=
  flushStep io (mergeAll cached tmp)

/-- Several worker cycles in a row, threading the cache; each list in
`cycles` is the batch drained in that cycle. -/
def runCycles (io : Path → WriteData → IoResult) :
    Cache → List (List (Path × WriteData)) → Cache
  | c, [] => c
  | c, tmp :: rest => runCycles io (cycle io c tmp).1 rest

/-- The buffers of all fragments addressed to `p` inside a drained batch,
in drain order (the empty-payload guard of the merge loop is applied by
the lemmas that use this, via nonemptiness hypotheses). -/
def fragBufsFor (p : Path) (tmp : List (Path × WriteData)) : List Bytes :=
  tmp.filterMap (fun qd => if qd.1 = p then some qd.2.buf else none)

/-- The first non-empty fragment ever drained for `p`, scanning a flat
history of drained requests. -/
def firstFragFor (p : Path) : List (Path × WriteData) → Option WriteData
  | [] => none
  | (q, d) :: rest =>
      if q = p ∧ d.is_empty = false then some d else firstFragFor p rest

/-- The flush events recorded for path `p` in a cycle. -/
def eventsAt (p : Path) (evs : List WriteEvent) : List WriteEvent :=
  evs.filter (fun ev => ev.path = p)

/-!  Model of the submission side.  `WriteLocal::write` is
`let _ = self.tx.send((dest_file, data));` on a `flume::bounded(1000)`
channel: the `Result` is discarded.  A flume bounded `send` returns
`Err` (here: the message is silently dropped) only when every receiver is
gone; when the queue is full and the receiver is alive it blocks until
space frees up — it does not drop. -/

/-- State of the bounded channel: capacity, queued messages, and whether
the worker (the sole receiver) is still alive. -/
structure Channel where
  cap : Nat
  queue : List (Path × WriteData)
  receiverAlive : Bool
deriving DecidableEq

/-- What a call to `WriteLocal::write` does, as a single step: with the
receiver gone the send errs, the error is discarded and the message is
dropped; with a live receiver and a full queue the call blocks until
space is available; otherwise the message is enqueued. -/
inductive SendOutcome where
  | delivered
  | droppedDisconnected
  | blocksUntilSpace
deriving DecidableEq, Repr

def channelSend (st : Channel) (m : Path × WriteData) :
    Channel × SendOutcome :=
  if st.receiverAlive = false then (st, .droppedDisconnected)
  else if st.cap ≤ st.queue.length then (st, .blocksUntilSpace)
  else ({ st with queue := st.queue ++ [m] }, .delivered)

/-! ### Basic lemmas about the map operations -/

theorem is_empty_iff (d : WriteData) : d.is_empty = true ↔ d.buf = [] := by
  cases d <;> simp [WriteData.is_empty, WriteData.buf, List.isEmpty_iff]

theorem is_empty_false_iff (d : WriteData) :
    d.is_empty = false ↔ d.buf ≠ [] := by
  rw [← Bool.not_eq_true, not_iff_not]
  exact is_empty_iff d

theorem variant_write (e : WriteData) (b : Bytes) :
    (e.write b).variant = e.variant := by
  cases e <;> rfl

theorem variant_clear (e : WriteData) : e.clear.variant = e.variant := by
  cases e <;> rfl

theorem buf_clear (e : WriteData) : e.clear.buf = [] := by
  cases e <;> rfl

theorem write_emptyOf (d : WriteData) :
    (emptyOf d).write d.buf = d := by
  cases d <;> rfl

theorem lookupC_append (c₁ c₂ : Cache) (p : Path) :
    lookupC (c₁ ++ c₂) p =
      match lookupC c₁ p with
      | some e => some e
      | none => lookupC c₂ p := by
  induction c₁ with
  | nil => simp [lookupC]
  | cons qe rest ih =>
      obtain ⟨q, e⟩ := qe
      by_cases hq : q = p <;> simp [lookupC, hq, ih]

theorem lookupC_updateC_self (c : Cache) (p : Path) (v : WriteData)
    (h : (lookupC c p).isSome) : lookupC (updateC c p v) p = some v := by
  induction c with
  | nil => simp [lookupC] at h
  | cons qe rest ih =>
      obtain ⟨q, e⟩ := qe
      by_cases hq : q = p
      · simp [lookupC, updateC, hq]
      · simp [lookupC, updateC, hq] at h ⊢
        exact ih h

theorem lookupC_updateC_other (c : Cache) (p q : Path) (v : WriteData)
    (h : q ≠ p) : lookupC (updateC c q v) p = lookupC c p := by
  induction c with
  | nil => rfl
  | cons re rest ih =>
      obtain ⟨r, e⟩ := re
      by_cases hr : r = q
      · subst hr
        simp [lookupC, updateC, h]
      · by_cases hp : r = p
        · subst hp
          simp [lookupC, updateC, hr]
        · simp [lookupC, updateC, hr, hp, ih]

theorem lookupC_mergeOne_other (c : Cache) (f p : Path) (d : WriteData)
    (h : f ≠ p) : lookupC (mergeOne c f d) p = lookupC c p := by
  unfold mergeOne
  by_cases he : d.is_empty <;> simp [he]
  cases hl : lookupC c f with
  | some e => simpa using lookupC_updateC_other c p f (e.write d.buf) h
  | none =>
      rw [lookupC_append]
      cases hlp : lookupC c p <;> simp [lookupC, h]

theorem lookupC_mergeOne_self_existing (c : Cache) (f : Path)
    (d e : WriteData) (hne : d.is_empty = false)
    (hl : lookupC c f = some e) :
    lookupC (mergeOne c f d) f = some (e.write d.buf) := by
  unfold mergeOne
  rw [hne, hl]
  simp only [Bool.false_eq_true, if_false]
  exact lookupC_updateC_self c f (e.write d.buf) (by simp [hl])

theorem lookupC_mergeOne_self_new (c : Cache) (f : Path)
    (d : WriteData) (hne : d.is_empty = false)
    (hl : lookupC c f = none) :
    lookupC (mergeOne c f d) f = some ((emptyOf d).write d.buf) := by
  unfold mergeOne
  rw [hne, hl]
  simp only [Bool.false_eq_true, if_false]
  rw [lookupC_append, hl]
  simp [lookupC]

theorem mergeOne_empty (c : Cache) (f : Path) (d : WriteData)
    (he : d.is_empty = true) : mergeOne c f d = c := by
  unfold mergeOne
  rw [he]
  simp

theorem lookupC_eq_none_iff (c : Cache) (p : Path) :
    lookupC c p = none ↔ ∀ qd ∈ c, qd.1 ≠ p := by
  induction c with
  | nil => simp [lookupC]
  | cons qe rest ih =>
      obtain ⟨q, e⟩ := qe
      by_cases hq : q = p <;> simp [lookupC, hq, ih]

theorem updateC_map_fst (c : Cache) (p : Path) (v : WriteData) :
    (updateC c p v).map Prod.fst = c.map Prod.fst := by
  induction c with
  | nil => rfl
  | cons qe rest ih =>
      obtain ⟨q, e⟩ := qe
      by_cases hq : q = p <;> simp [updateC, hq, ih]

theorem mergeOne_nodup (c : Cache) (f : Path) (d : WriteData)
    (h : (c.map Prod.fst).Nodup) :
    ((mergeOne c f d).map Prod.fst).Nodup := by
  unfold mergeOne
  by_cases he : d.is_empty <;> simp [he]
  · exact h
  · cases hl : lookupC c f with
    | some e => rw [updateC_map_fst]; exact h
    | none =>
        rw [lookupC_eq_none_iff] at hl
        simp only [List.map_append, List.map_cons, List.map_nil]
        rw [List.nodup_append]
        refine ⟨h, List.nodup_singleton f, ?_⟩
        intro a ha hb
        simp at hb
        subst hb
        obtain ⟨⟨q, e⟩, hq, hq2⟩ := List.mem_map.mp ha
        exact hl ⟨q, e⟩ hq hq2

theorem mergeAll_nodup (tmp : List (Path × WriteData)) :
    ∀ c : Cache, (c.map Prod.fst).Nodup →
      ((mergeAll c tmp).map Prod.fst).Nodup := by
  induction tmp with
  | nil => intro c h; exact h
  | cons fd rest ih =>
      intro c h
      exact ih (mergeOne c fd.1 fd.2) (mergeOne_nodup c fd.1 fd.2 h)

theorem variant_append_elim (d : WriteData)
    (h : d.variant = Variant.append) : d = .append d.buf := by
  cases d
  · rfl
  · simp [WriteData.variant] at h

theorem variant_override_elim (d : WriteData)
    (h : d.variant = Variant.override) : d = .override d.buf := by
  cases d
  · simp [WriteData.variant] at h
  · rfl

theorem fragBufsFor_cons_self (p : Path) (d : WriteData)
    (tmp : List (Path × WriteData)) :
    fragBufsFor p ((p, d) :: tmp) = d.buf :: fragBufsFor p tmp := by
  simp [fragBufsFor]

theorem fragBufsFor_cons_other (p q : Path) (d : WriteData)
    (tmp : List (Path × WriteData)) (h : q ≠ p) :
    fragBufsFor p ((q, d) :: tmp) = fragBufsFor p tmp := by
  simp [fragBufsFor, h]

theorem mem_fragBufsFor (p : Path) (tmp : List (Path × WriteData))
    (b : Bytes) (h : b ∈ fragBufsFor p tmp) :
    ∃ qd ∈ tmp, qd.1 = p ∧ qd.2.buf = b := by
  induction tmp with
  | nil => simp [fragBufsFor] at h
  | cons qe rest ih =>
      obtain ⟨q, e⟩ := qe
      by_cases hq : q = p
      · subst hq
        rw [fragBufsFor_cons_self] at h
        rcases List.mem_cons.mp h with hb | hb
        · exact ⟨(q, e), List.mem_cons_self _ _, rfl, hb.symm⟩
        · obtain ⟨qd, hm, h1, h2⟩ := ih hb
          exact ⟨qd, List.mem_cons_of_mem _ hm, h1, h2⟩
      · rw [fragBufsFor_cons_other p q e rest hq] at h
        obtain ⟨qd, hm, h1, h2⟩ := ih h
        exact ⟨qd, List.mem_cons_of_mem _ hm, h1, h2⟩

/-- Interleaved Append accumulation: if the entry at `p` is an Append
entry with buffer `b0`, and every fragment addressed to `p` in the batch
is a non-empty Append, merging the batch leaves `p` with an Append entry
whose buffer is `b0` followed by the fragments in drain order. -/
theorem mergeAll_append_accum (p : Path) (tmp : List (Path × WriteData)) :
    ∀ (c : Cache) (b0 : Bytes),
      (∀ qd ∈ tmp, qd.1 = p →
        qd.2.variant = Variant.append ∧ qd.2.is_empty = false) →
      lookupC c p = some (.append b0) →
      lookupC (mergeAll c tmp) p =
        some (.append (b0 ++ (fragBufsFor p tmp).flatten)) := by
  induction tmp with
  | nil => intro c b0 _ hc; simpa [mergeAll, fragBufsFor] using hc
  | cons qd rest ih =>
      intro c b0 hfr hc
      obtain ⟨q, d⟩ := qd
      by_cases hq : q = p
      · subst hq
        obtain ⟨hvar, hne⟩ := hfr (q, d) (List.mem_cons_self _ _) rfl
        have hd : d = .append d.buf := variant_append_elim d hvar
        have hstep : lookupC (mergeOne c q d) q =
            some ((WriteData.append b0).write d.buf) :=
          lookupC_mergeOne_self_existing c q d (.append b0) hne hc
        rw [WriteData.write] at hstep
        have := ih (mergeOne c q d) (b0 ++ d.buf)
          (fun x hx h1 => hfr x (List.mem_cons_of_mem _ hx) h1) hstep
        rw [fragBufsFor_cons_self, List.flatten_cons, ← List.append_assoc]
        exact this
      · rw [fragBufsFor_cons_other p q d rest hq]
        refine ih (mergeOne c q d) b0
          (fun x hx h1 => hfr x (List.mem_cons_of_mem _ hx) h1) ?_
        rw [lookupC_mergeOne_other c q p d hq]
        exact hc

/-- As `mergeAll_append_accum`, but starting with no entry for `p`:
the first non-empty Append fragment creates the entry. -/
theorem mergeAll_append_from_none (p : Path) (tmp : List (Path × WriteData)) :
    ∀ c : Cache,
      (∀ qd ∈ tmp, qd.1 = p →
        qd.2.variant = Variant.append ∧ qd.2.is_empty = false) →
      lookupC c p = none →
      fragBufsFor p tmp ≠ [] →
      lookupC (mergeAll c tmp) p =
        some (.append (fragBufsFor p tmp).flatten) := by
  induction tmp with
  | nil => intro c _ _ hne; simp [fragBufsFor] at hne
  | cons qd rest ih =>
      intro c hfr hc hne
      obtain ⟨q, d⟩ := qd
      by_cases hq : q = p
      · subst hq
        obtain ⟨hvar, hdne⟩ := hfr (q, d) (List.mem_cons_self _ _) rfl
        have hd : d = .append d.buf := variant_append_elim d hvar
        have hstep : lookupC (mergeOne c q d) q =
            some ((emptyOf d).write d.buf) :=
          lookupC_mergeOne_self_new c q d hdne hc
        rw [write_emptyOf] at hstep
        have hstep2 : lookupC (mergeOne c q d) q =
            some (WriteData.append d.buf) := hstep.trans (congrArg some hd)
        have := mergeAll_append_accum q rest (mergeOne c q d) d.buf
          (fun x hx h1 => hfr x (List.mem_cons_of_mem _ hx) h1) hstep2
        rw [fragBufsFor_cons_self, List.flatten_cons]
        exact this
      · rw [fragBufsFor_cons_other p q d rest hq] at hne ⊢
        refine ih (mergeOne c q d)
          (fun x hx h1 => hfr x (List.mem_cons_of_mem _ hx) h1) ?_ hne
        rw [lookupC_mergeOne_other c q p d hq]
        exact hc

/-- The last element of a list, with a default for the empty list. -/
def lastFrag : List Bytes → Bytes → Bytes
  | [], d => d
  | b :: rest, _ => lastFrag rest b

theorem lastFrag_concat (l : List Bytes) :
    ∀ (b d : Bytes), lastFrag (l ++ [b]) d = b := by
  induction l with
  | nil => intro b d; rfl
  | cons x rest ih => intro b d; exact ih b x

theorem lastFrag_mem (l : List Bytes) :
    ∀ d : Bytes, l ≠ [] → lastFrag l d ∈ l := by
  induction l with
  | nil => intro d h; exact absurd rfl h
  | cons x rest ih =>
      intro d _
      cases hr : rest with
      | nil => simp [lastFrag]
      | cons y t =>
          have := ih x (by simp [hr])
          rw [hr] at this
          exact List.mem_cons_of_mem x (by simpa [lastFrag, hr] using this)

/-- Interleaved Override last-write-wins: if the entry at `p` is an
Override entry, and every fragment addressed to `p` in the batch is a
non-empty Override, merging the batch leaves `p` with an Override entry
holding exactly the last such fragment's bytes. -/
theorem mergeAll_override_last (p : Path) (tmp : List (Path × WriteData)) :
    ∀ (c : Cache) (b0 : Bytes),
      (∀ qd ∈ tmp, qd.1 = p →
        qd.2.variant = Variant.override ∧ qd.2.is_empty = false) →
      lookupC c p = some (.override b0) →
      lookupC (mergeAll c tmp) p =
        some (.override (lastFrag (fragBufsFor p tmp) b0)) := by
  induction tmp with
  | nil => intro c b0 _ hc; simpa [mergeAll, fragBufsFor, lastFrag] using hc
  | cons qd rest ih =>
      intro c b0 hfr hc
      obtain ⟨q, d⟩ := qd
      by_cases hq : q = p
      · subst hq
        obtain ⟨hvar, hne⟩ := hfr (q, d) (List.mem_cons_self _ _) rfl
        have hstep : lookupC (mergeOne c q d) q =
            some ((WriteData.override b0).write d.buf) :=
          lookupC_mergeOne_self_existing c q d (.override b0) hne hc
        rw [WriteData.write] at hstep
        have := ih (mergeOne c q d) d.buf
          (fun x hx h1 => hfr x (List.mem_cons_of_mem _ hx) h1) hstep
        rw [fragBufsFor_cons_self]
        exact this
      · rw [fragBufsFor_cons_other p q d rest hq]
        refine ih (mergeOne c q d) b0
          (fun x hx h1 => hfr x (List.mem_cons_of_mem _ hx) h1) ?_
        rw [lookupC_mergeOne_other c q p d hq]
        exact hc

/-- As `mergeAll_override_last`, but starting with no entry for `p`. -/
theorem mergeAll_override_from_none (p : Path)
    (tmp : List (Path × WriteData)) :
    ∀ c : Cache,
      (∀ qd ∈ tmp, qd.1 = p →
        qd.2.variant = Variant.override ∧ qd.2.is_empty = false) →
      lookupC c p = none →
      fragBufsFor p tmp ≠ [] →
      lookupC (mergeAll c tmp) p =
        some (.override (lastFrag (fragBufsFor p tmp) [])) := by
  induction tmp with
  | nil => intro c _ _ hne; simp [fragBufsFor] at hne
  | cons qd rest ih =>
      intro c hfr hc hne
      obtain ⟨q, d⟩ := qd
      by_cases hq : q = p
      · subst hq
        obtain ⟨hvar, hdne⟩ := hfr (q, d) (List.mem_cons_self _ _) rfl
        have hd : d = .override d.buf := variant_override_elim d hvar
        have hstep : lookupC (mergeOne c q d) q =
            some ((emptyOf d).write d.buf) :=
          lookupC_mergeOne_self_new c q d hdne hc
        rw [write_emptyOf] at hstep
        have hstep2 : lookupC (mergeOne c q d) q =
            some (WriteData.override d.buf) := hstep.trans (congrArg some hd)
        have := mergeAll_override_last q rest (mergeOne c q d) d.buf
          (fun x hx h1 => hfr x (List.mem_cons_of_mem _ hx) h1) hstep2
        rw [fragBufsFor_cons_self]
        exact this
      · rw [fragBufsFor_cons_other p q d rest hq] at hne ⊢
        refine ih (mergeOne c q d)
          (fun x hx h1 => hfr x (List.mem_cons_of_mem _ hx) h1) ?_ hne
        rw [lookupC_mergeOne_other c q p d hq]
        exact hc

/-! ### Flush lemmas -/

theorem flushStep_state_lookup (io : Path → WriteData → IoResult)
    (c : Cache) (p : Path) :
    lookupC (flushStep io c).1 p =
      (lookupC c p).map (fun e => if e.is_empty then e else e.clear) := by
  induction c with
  | nil => rfl
  | cons qe rest ih =>
      obtain ⟨q, d⟩ := qe
      by_cases hq : q = p
      · subst hq
        by_cases he : d.is_empty <;> simp [flushStep, lookupC, he]
      · by_cases he : d.is_empty <;> simp [flushStep, lookupC, hq, he, ih]

theorem flushStep_map_fst (io : Path → WriteData → IoResult) (c : Cache) :
    (flushStep io c).1.map Prod.fst = c.map Prod.fst := by
  induction c with
  | nil => rfl
  | cons qe rest ih =>
      obtain ⟨q, d⟩ := qe
      by_cases he : d.is_empty <;> simp [flushStep, he, ih]

theorem flushStep_state_indep (io₁ io₂ : Path → WriteData → IoResult)
    (c : Cache) : (flushStep io₁ c).1 = (flushStep io₂ c).1 := by
  induction c with
  | nil => rfl
  | cons qe rest ih =>
      obtain ⟨q, d⟩ := qe
      by_cases he : d.is_empty <;> simp [flushStep, he, ih]

theorem flushStep_bufs_empty (io : Path → WriteData → IoResult)
    (c : Cache) : ∀ pe ∈ (flushStep io c).1, pe.2.buf = [] := by
  induction c with
  | nil => intro pe h; simp [flushStep] at h
  | cons qe rest ih =>
      obtain ⟨q, d⟩ := qe
      intro pe h
      by_cases he : d.is_empty
      · simp only [flushStep, he, if_true] at h
        rcases List.mem_cons.mp h with h | h
        · subst h; exact (is_empty_iff d).mp he
        · exact ih pe h
      · simp only [flushStep, he, Bool.false_eq_true, if_false,
          Bool.not_eq_true] at h
        rcases List.mem_cons.mp h with h | h
        · subst h; exact buf_clear d
        · exact ih pe h

theorem mem_flushStep_events (io : Path → WriteData → IoResult)
    (c : Cache) (p : Path) (e : WriteData)
    (h : lookupC c p = some e) (hne : e.is_empty = false) :
    WriteEvent.mk p e.buf (io p e) ∈ (flushStep io c).2 := by
  induction c with
  | nil => simp [lookupC] at h
  | cons qe rest ih =>
      obtain ⟨q, d⟩ := qe
      by_cases hq : q = p
      · subst hq
        rw [lookupC, if_pos rfl] at h
        injection h with h
        subst h
        simp [flushStep, hne]
      · rw [lookupC, if_neg hq] at h
        by_cases he : d.is_empty <;>
          simp only [flushStep, he, if_true, Bool.false_eq_true, if_false]
        · exact ih h
        · exact List.mem_cons_of_mem _ (ih h)

theorem eventsAt_flushStep_not_mem (io : Path → WriteData → IoResult)
    (c : Cache) (p : Path) (h : ∀ qd ∈ c, qd.1 ≠ p) :
    eventsAt p (flushStep io c).2 = [] := by
  induction c with
  | nil => rfl
  | cons qe rest ih =>
      obtain ⟨q, d⟩ := qe
      have hq : q ≠ p := h (q, d) (List.mem_cons_self _ _)
      have hrest := ih (fun x hx => h x (List.mem_cons_of_mem _ hx))
      by_cases he : d.is_empty
      · simpa [flushStep, he] using hrest
      · simpa [flushStep, he, eventsAt, hq] using hrest

theorem eventsAt_flushStep_nodup (io : Path → WriteData → IoResult)
    (c : Cache) (p : Path) (hnd : (c.map Prod.fst).Nodup) :
    eventsAt p (flushStep io c).2 =
      match lookupC c p with
      | none => []
      | some e =>
          if e.is_empty then [] else [WriteEvent.mk p e.buf (io p e)] := by
  induction c with
  | nil => rfl
  | cons qe rest ih =>
      obtain ⟨q, d⟩ := qe
      simp only [List.map_cons, List.nodup_cons] at hnd
      obtain ⟨hq_not, hrest_nd⟩ := hnd
      by_cases hq : q = p
      · subst hq
        have hnone : ∀ qd ∈ rest, qd.1 ≠ q := by
          intro qd hqd hcontra
          exact hq_not (hcontra ▸ List.mem_map_of_mem Prod.fst hqd)
        have hrest := eventsAt_flushStep_not_mem io rest q hnone
        by_cases he : d.is_empty
        · simp [flushStep, he, lookupC, hrest]
        · simp [flushStep, he, lookupC, eventsAt] at hrest ⊢
          exact hrest
      · have := ih hrest_nd
        by_cases he : d.is_empty
        · simpa [flushStep, he, lookupC, hq] using this
        · simpa [flushStep, he, lookupC, eventsAt, hq] using this

theorem eventsAt_flushStep_congr (io₁ io₂ : Path → WriteData → IoResult)
    (c : Cache) (p : Path) (hagree : ∀ e, io₁ p e = io₂ p e) :
    eventsAt p (flushStep io₁ c).2 = eventsAt p (flushStep io₂ c).2 := by
  induction c with
  | nil => rfl
  | cons qe rest ih =>
      obtain ⟨q, d⟩ := qe
      by_cases he : d.is_empty
      · simpa [flushStep, he] using ih
      · by_cases hq : q = p
        · subst hq
          simp [flushStep, he, eventsAt, hagree d, List.filter] at ih ⊢
          exact ih
        · simpa [flushStep, he, eventsAt, hq] using ih

/-! ### The variant invariant: every entry's variant is the variant of the
first non-empty fragment ever drained for its path -/

/-- Invariant linking the worker's map to the flat history of drained
requests: a path has an entry exactly when a non-empty fragment for it has
been drained, and the entry's variant is the first such fragment's. -/
def VariantInv (c : Cache) (hist : List (Path × WriteData)) : Prop :=
  ∀ p, (lookupC c p).map WriteData.variant =
    (firstFragFor p hist).map WriteData.variant

theorem firstFragFor_append (p : Path) (h₁ h₂ : List (Path × WriteData)) :
    firstFragFor p (h₁ ++ h₂) =
      match firstFragFor p h₁ with
      | some d => some d
      | none => firstFragFor p h₂ := by
  induction h₁ with
  | nil => simp [firstFragFor]
  | cons qd rest ih =>
      obtain ⟨q, d⟩ := qd
      by_cases h : q = p ∧ d.is_empty = false <;>
        simp [firstFragFor, h, ih]

theorem variantInv_nil : VariantInv [] [] := by
  intro p
  rfl

theorem variantInv_mergeOne (c : Cache) (hist : List (Path × WriteData))
    (f : Path) (d : WriteData) (h : VariantInv c hist) :
    VariantInv (mergeOne c f d) (hist ++ [(f, d)]) := by
  intro p
  rw [firstFragFor_append]
  by_cases hf : f = p
  · subst hf
    by_cases he : d.is_empty
    · rw [mergeOne_empty c f d he]
      have hfr2 : firstFragFor f [(f, d)] = none := by
        simp [firstFragFor, he]
      rw [hfr2]
      cases hfr : firstFragFor f hist <;> simp [h f, hfr]
    · have he' : d.is_empty = false := Bool.eq_false_iff.mpr he
      cases hl : lookupC c f with
      | some e =>
          rw [lookupC_mergeOne_self_existing c f d e he' hl]
          have hv := h f
          rw [hl] at hv
          cases hfr : firstFragFor f hist with
          | none => rw [hfr] at hv; simp at hv
          | some d0 =>
              rw [hfr] at hv
              have hv' : e.variant = d0.variant := by simpa using hv
              simp [variant_write, hv']
      | none =>
          rw [lookupC_mergeOne_self_new c f d he' hl, write_emptyOf]
          have hv := h f
          rw [hl] at hv
          cases hfr : firstFragFor f hist with
          | some d0 => rw [hfr] at hv; simp at hv
          | none =>
              simp [firstFragFor, he']
  · rw [lookupC_mergeOne_other c f p d hf]
    have hfr2 : firstFragFor p [(f, d)] = none := by
      simp [firstFragFor, hf]
    rw [hfr2]
    cases hfr : firstFragFor p hist <;> simp [h p, hfr]

theorem variantInv_mergeAll (tmp : List (Path × WriteData)) :
    ∀ (c : Cache) (hist : List (Path × WriteData)),
      VariantInv c hist → VariantInv (mergeAll c tmp) (hist ++ tmp) := by
  induction tmp with
  | nil => intro c hist h; simpa using h
  | cons fd rest ih =>
      intro c hist h
      have h1 := variantInv_mergeOne c hist fd.1 fd.2 h
      have h2 := ih (mergeOne c fd.1 fd.2) (hist ++ [(fd.1, fd.2)]) h1
      have : hist ++ fd :: rest = (hist ++ [(fd.1, fd.2)]) ++ rest := by
        simp
      rw [this]
      exact h2

theorem variantInv_flush (io : Path → WriteData → IoResult) (c : Cache)
    (hist : List (Path × WriteData)) (h : VariantInv c hist) :
    VariantInv (flushStep io c).1 hist := by
  intro p
  rw [flushStep_state_lookup]
  cases hl : lookupC c p with
  | none => have hv := h p; rw [hl] at hv; simpa using hv
  | some e =>
      have hv := h p
      rw [hl] at hv
      by_cases he : e.is_empty
      · simpa [he] using hv
      · simpa [he, variant_clear] using hv

theorem variantInv_runCycles (io : Path → WriteData → IoResult)
    (cycles : List (List (Path × WriteData))) :
    ∀ (c : Cache) (hist : List (Path × WriteData)),
      VariantInv c hist →
      VariantInv (runCycles io c cycles) (hist ++ cycles.flatten) := by
  induction cycles with
  | nil => intro c hist h; simpa using h
  | cons tmp rest ih =>
      intro c hist h
      have h1 := variantInv_mergeAll tmp c hist h
      have h2 := variantInv_flush io (mergeAll c tmp) (hist ++ tmp) h1
      have h3 := ih (cycle io c tmp).1 (hist ++ tmp) h2
      have : hist ++ (tmp :: rest).flatten = (hist ++ tmp) ++ rest.flatten := by
        simp
      rw [this]
      exact h3

/-! ### Remaining helpers -/

theorem fragBufsFor_nonempty (p : Path) (tmp : List (Path × WriteData))
    (hfrags : ∀ qd ∈ tmp, qd.1 = p → qd.2.is_empty = false) :
    ∀ b ∈ fragBufsFor p tmp, b ≠ [] := by
  intro b hb
  obtain ⟨qd, hm, h1, h2⟩ := mem_fragBufsFor p tmp b hb
  have := hfrags qd hm h1
  rw [is_empty_false_iff] at this
  rw [← h2]
  exact this

theorem flatten_ne_nil (l : List Bytes) (hl : l ≠ [])
    (hall : ∀ b ∈ l, b ≠ []) : l.flatten ≠ [] := by
  cases l with
  | nil => exact absurd rfl hl
  | cons b t =>
      have hb := hall b (List.mem_cons_self _ _)
      simp only [List.flatten_cons]
      intro h
      exact hb (List.append_eq_nil.mp h).1

theorem lastFrag_default_irrel (l : List Bytes) (hl : l ≠ [])
    (d₁ d₂ : Bytes) : lastFrag l d₁ = lastFrag l d₂ := by
  cases l with
  | nil => exact absurd rfl hl
  | cons b t => rfl

theorem lookupC_mergeOne_isSome (c : Cache) (f p : Path) (d : WriteData)
    (h : (lookupC c p).isSome) : (lookupC (mergeOne c f d) p).isSome := by
  by_cases he : d.is_empty
  · rw [mergeOne_empty c f d he]; exact h
  · have he' : d.is_empty = false := Bool.eq_false_iff.mpr he
    by_cases hf : f = p
    · subst hf
      cases hl : lookupC c f with
      | none => rw [hl] at h; simp at h
      | some e =>
          rw [lookupC_mergeOne_self_existing c f d e he' hl]
          simp
    · rw [lookupC_mergeOne_other c f p d hf]
      exact h

theorem lookupC_mergeAll_isSome (tmp : List (Path × WriteData)) :
    ∀ (c : Cache) (p : Path), (lookupC c p).isSome →
      (lookupC (mergeAll c tmp) p).isSome := by
  induction tmp with
  | nil => intro c p h; exact h
  | cons fd rest ih =>
      intro c p h
      exact ih (mergeOne c fd.1 fd.2) p (lookupC_mergeOne_isSome c fd.1 p fd.2 h)

/-- The state the worker carries into the next cycle never depends on the
outcomes of the physical writes. -/
theorem runCycles_state_indep (io₁ io₂ : Path → WriteData → IoResult)
    (cycles : List (List (Path × WriteData))) :
    ∀ c : Cache, runCycles io₁ c cycles = runCycles io₂ c cycles := by
  induction cycles with
  | nil => intro c; rfl
  | cons tmp rest ih =>
      intro c
      show runCycles io₁ (cycle io₁ c tmp).1 rest =
        runCycles io₂ (cycle io₂ c tmp).1 rest
      rw [show (cycle io₁ c tmp).1 = (cycle io₂ c tmp).1 from
        flushStep_state_indep io₁ io₂ (mergeAll c tmp)]
      exact ih (cycle io₂ c tmp).1

/-- An oracle on which every physical write fully succeeds. -/
def okIo : Path → WriteData → IoResult := fun _ d => .success d.len

/-- An oracle on which every physical write fails. -/
def failIo : Path → WriteData → IoResult := fun _ _ => .failure "io error"

/-- An oracle on which the write for path 0 fails and every other path's
write fully succeeds. -/
def failAt0Io : Path → WriteData → IoResult :=
  fun p d => if p = 0 then .failure "io error" else .success d.len

/-- An oracle reporting a short write: the call returns `Ok(1)` no matter
how many bytes were handed to it. -/
def shortIo : Path → WriteData → IoResult := fun _ _ => .success 1

/-- `bounded::<(PathBuf, WriteData)>(1000)` in `WriteLocal::init`. -/
def queueCapacity : Nat := 1000

/-- A channel at capacity with the worker still alive. -/
def fullChannel : Channel :=
  ⟨queueCapacity, List.replicate queueCapacity (0, .append [0]), true⟩

/-! ### The claims -/

/-- C1: for every sequence of non-empty Append fragments submitted for the
same path and merged within one debounce window (the entry for that path
being absent or an Append entry with empty buffer at window start), the
bytes flushed for that path equal the concatenation of the fragments in
the order they were drained. -/
theorem c1_append_fragments_concatenate
    (io : Path → WriteData → IoResult) (c : Cache)
    (tmp : List (Path × WriteData)) (p : Path)
    (hnd : (c.map Prod.fst).Nodup)
    (hstart : lookupC c p = none ∨ lookupC c p = some (.append []))
    (hfrags : ∀ qd ∈ tmp, qd.1 = p →
      qd.2.variant = Variant.append ∧ qd.2.is_empty = false)
    (hany : fragBufsFor p tmp ≠ []) :
    lookupC (mergeAll c tmp) p =
      some (.append (fragBufsFor p tmp).flatten) ∧
    eventsAt p (cycle io c tmp).2 =
      [⟨p, (fragBufsFor p tmp).flatten,
        io p (.append (fragBufsFor p tmp).flatten)⟩] := by
  have hmerge : lookupC (mergeAll c tmp) p =
      some (.append (fragBufsFor p tmp).flatten) := by
    rcases hstart with h0 | h0
    · exact mergeAll_append_from_none p tmp c hfrags h0 hany
    · simpa using mergeAll_append_accum p tmp c [] hfrags h0
  refine ⟨hmerge, ?_⟩
  have hflne : (fragBufsFor p tmp).flatten ≠ [] :=
    flatten_ne_nil (fragBufsFor p tmp) hany
      (fragBufsFor_nonempty p tmp (fun qd hm h1 => (hfrags qd hm h1).2))
  have hne : (WriteData.append (fragBufsFor p tmp).flatten).is_empty
      = false := by
    rw [is_empty_false_iff]
    exact hflne
  have hev := eventsAt_flushStep_nodup io (mergeAll c tmp) p
    (mergeAll_nodup tmp c hnd)
  rw [hmerge] at hev
  simpa [cycle, hne] using hev

theorem c1_append_fragments_concatenate_witness :
    lookupC (mergeAll []
        [(0, WriteData.append [1]), (5, WriteData.override [9]),
          (0, WriteData.append [2, 3])]) 0 =
      some (.append (fragBufsFor 0
        [(0, WriteData.append [1]), (5, WriteData.override [9]),
          (0, WriteData.append [2, 3])]).flatten) ∧
    eventsAt 0 (cycle okIo []
        [(0, WriteData.append [1]), (5, WriteData.override [9]),
          (0, WriteData.append [2, 3])]).2 =
      [⟨0, (fragBufsFor 0
          [(0, WriteData.append [1]), (5, WriteData.override [9]),
            (0, WriteData.append [2, 3])]).flatten,
        okIo 0 (.append (fragBufsFor 0
          [(0, WriteData.append [1]), (5, WriteData.override [9]),
            (0, WriteData.append [2, 3])]).flatten)⟩] :=
  c1_append_fragments_concatenate okIo []
    [(0, WriteData.append [1]), (5, WriteData.override [9]),
      (0, WriteData.append [2, 3])] 0
    (by decide) (Or.inl rfl) (by decide) (by decide)

/-- C2 as stated is false on the code: an entry keeps the variant it was
created with across cycles, so a window that drains only non-empty
Override fragments for a path whose entry is Append-variant concatenates
them.  Concretely: cycle 1 drains `Append [5]` for path 0 (flushed,
leaving an Append entry with empty buffer); cycle 2 drains `Override [1]`
then `Override [2]`, and the flush writes `[1, 2]`, not the last
fragment `[2]`. -/
theorem c2_overrides_counterexample :
    eventsAt 0 (cycle okIo
        (cycle okIo [] [(0, WriteData.append [5])]).1
        [(0, WriteData.override [1]), (0, WriteData.override [2])]).2 =
      [⟨0, [1, 2], IoResult.success 2⟩] ∧
    ([1, 2] : Bytes) ≠ [2] := by
  exact ⟨by decide, by decide⟩

/-- C2 amended: for every sequence of non-empty Override fragments
submitted for the same path and merged within one debounce window, *given
that the entry for that path is absent or of Override variant at window
start*, the buffer flushed for that path equals exactly the last
fragment's bytes; earlier Override fragments in that window are
discarded. -/
theorem c2_override_last_write_wins
    (io : Path → WriteData → IoResult) (c : Cache)
    (tmp : List (Path × WriteData)) (p : Path)
    (hnd : (c.map Prod.fst).Nodup)
    (hstart : lookupC c p = none ∨
      ∃ b0, lookupC c p = some (.override b0))
    (hfrags : ∀ qd ∈ tmp, qd.1 = p →
      qd.2.variant = Variant.override ∧ qd.2.is_empty = false)
    (hany : fragBufsFor p tmp ≠ []) :
    lookupC (mergeAll c tmp) p =
      some (.override (lastFrag (fragBufsFor p tmp) [])) ∧
    eventsAt p (cycle io c tmp).2 =
      [⟨p, lastFrag (fragBufsFor p tmp) [],
        io p (.override (lastFrag (fragBufsFor p tmp) []))⟩] := by
  have hmerge : lookupC (mergeAll c tmp) p =
      some (.override (lastFrag (fragBufsFor p tmp) [])) := by
    rcases hstart with h0 | ⟨b0, h0⟩
    · exact mergeAll_override_from_none p tmp c hfrags h0 hany
    · have := mergeAll_override_last p tmp c b0 hfrags h0
      rwa [lastFrag_default_irrel (fragBufsFor p tmp) hany b0 []] at this
  refine ⟨hmerge, ?_⟩
  have hlne : lastFrag (fragBufsFor p tmp) [] ≠ [] :=
    fragBufsFor_nonempty p tmp (fun qd hm h1 => (hfrags qd hm h1).2)
      (lastFrag (fragBufsFor p tmp) [])
      (lastFrag_mem (fragBufsFor p tmp) [] hany)
  have hne : (WriteData.override (lastFrag (fragBufsFor p tmp) [])).is_empty
      = false := by
    rw [is_empty_false_iff]
    exact hlne
  have hev := eventsAt_flushStep_nodup io (mergeAll c tmp) p
    (mergeAll_nodup tmp c hnd)
  rw [hmerge] at hev
  simpa [cycle, hne] using hev

theorem c2_override_last_write_wins_witness :
    lookupC (mergeAll []
        [(0, WriteData.override [1]), (0, WriteData.override [2])]) 0 =
      some (.override (lastFrag (fragBufsFor 0
        [(0, WriteData.override [1]), (0, WriteData.override [2])]) [])) ∧
    eventsAt 0 (cycle okIo []
        [(0, WriteData.override [1]), (0, WriteData.override [2])]).2 =
      [⟨0, lastFrag (fragBufsFor 0
          [(0, WriteData.override [1]), (0, WriteData.override [2])]) [],
        okIo 0 (.override (lastFrag (fragBufsFor 0
          [(0, WriteData.override [1]),
            (0, WriteData.override [2])]) []))⟩] :=
  c2_override_last_write_wins okIo []
    [(0, WriteData.override [1]), (0, WriteData.override [2])] 0
    (by decide) (Or.inl rfl) (by decide) (by decide)

/-- C3: for every path whose Pending Entry already exists, a later
non-empty fragment never changes the entry's variant and is merged under
the existing entry's variant; in particular an Append fragment arriving
at an Override-variant entry fully replaces the entry's buffer. -/
theorem c3_entry_variant_governs_merge (c : Cache) (f : Path)
    (d e : WriteData) (hl : lookupC c f = some e)
    (hne : d.is_empty = false) :
    lookupC (mergeOne c f d) f = some (e.write d.buf) ∧
    (e.write d.buf).variant = e.variant ∧
    (∀ b x, e = .override b → d = .append x →
      lookupC (mergeOne c f d) f = some (.override x)) := by
  have h1 := lookupC_mergeOne_self_existing c f d e hne hl
  refine ⟨h1, variant_write e d.buf, ?_⟩
  intro b x hb hx
  subst hb
  subst hx
  simpa [WriteData.write, WriteData.buf] using h1

theorem c3_entry_variant_governs_merge_witness :
    lookupC (mergeOne [(0, WriteData.override [7])] 0
        (WriteData.append [4])) 0 =
      some ((WriteData.override [7]).write (WriteData.append [4]).buf) ∧
    ((WriteData.override [7]).write (WriteData.append [4]).buf).variant =
      (WriteData.override [7]).variant ∧
    (∀ b x, WriteData.override [7] = .override b →
      WriteData.append [4] = .append x →
      lookupC (mergeOne [(0, WriteData.override [7])] 0
        (WriteData.append [4])) 0 = some (.override x)) :=
  c3_entry_variant_governs_merge [(0, WriteData.override [7])] 0
    (WriteData.append [4]) (WriteData.override [7]) (by decide) (by decide)

/-- C4: after the flush step every entry's buffer is empty, whatever the
oracle answered for each write attempt (the resulting map does not depend
on the oracle at all), and no later cycle can resurrect the bytes of a
failed write: the state after any sequence of further cycles is the same
under a failing oracle as under a succeeding one. -/
theorem c4_flush_clears_buffer_regardless
    (io io₂ : Path → WriteData → IoResult) (c : Cache)
    (cycles : List (List (Path × WriteData))) :
    ((flushStep io c).1.all (fun pe => pe.2.buf.isEmpty)) = true ∧
    (flushStep io c).1 = (flushStep io₂ c).1 ∧
    runCycles io c cycles = runCycles io₂ c cycles := by
  refine ⟨?_, flushStep_state_indep io io₂ c,
    runCycles_state_indep io io₂ cycles c⟩
  rw [List.all_eq_true]
  intro pe hpe
  rw [List.isEmpty_iff]
  exact flushStep_bufs_empty io c pe hpe

/-- C5: within a single flush cycle, the write attempt for a path `B` with
a non-empty buffer is performed, and the events recorded for `B`
(including the outcome) are identical under any two oracles that agree on
`B` — in particular whether or not the write for any other path fails. -/
theorem c5_cross_path_independence
    (io₁ io₂ : Path → WriteData → IoResult) (c : Cache) (B : Path)
    (d : WriteData) (hagree : ∀ e, io₁ B e = io₂ B e)
    (hB : lookupC c B = some d) (hne : d.is_empty = false) :
    eventsAt B (flushStep io₁ c).2 = eventsAt B (flushStep io₂ c).2 ∧
    WriteEvent.mk B d.buf (io₁ B d) ∈ (flushStep io₁ c).2 :=
  ⟨eventsAt_flushStep_congr io₁ io₂ c B hagree,
    mem_flushStep_events io₁ c B d hB hne⟩

theorem c5_cross_path_independence_witness :
    eventsAt 1 (flushStep failAt0Io
        [(0, WriteData.append [1]), (1, WriteData.override [2])]).2 =
      eventsAt 1 (flushStep okIo
        [(0, WriteData.append [1]), (1, WriteData.override [2])]).2 ∧
    WriteEvent.mk 1 (WriteData.override [2]).buf
        (failAt0Io 1 (WriteData.override [2])) ∈
      (flushStep failAt0Io
        [(0, WriteData.append [1]), (1, WriteData.override [2])]).2 :=
  c5_cross_path_independence failAt0Io okIo
    [(0, WriteData.append [1]), (1, WriteData.override [2])] 1
    (WriteData.override [2]) (fun _ => rfl) (by decide) (by decide)

set_option maxRecDepth 10000 in
/-- C6 as stated is false on the code: `WriteLocal::write` uses the
blocking `Sender::send` (not `try_send`) and merely discards its
`Result`; on a full queue with a live receiver the call blocks until
space frees up instead of returning with the submission dropped. -/
theorem c6_full_queue_counterexample :
    (channelSend fullChannel (1, WriteData.append [1])).2 =
      SendOutcome.blocksUntilSpace ∧
    SendOutcome.blocksUntilSpace ≠ SendOutcome.delivered ∧
    SendOutcome.blocksUntilSpace ≠ SendOutcome.droppedDisconnected := by
  refine ⟨?_, by decide, by decide⟩
  rfl

/-- C6 amended: a submission never surfaces an error to the caller; when
the consuming side has been torn down it is silently dropped (the send
error is discarded) with the queue unchanged; when the queue is full and
the receiver is alive the call blocks until space is available rather
than dropping; otherwise the pair is enqueued. -/
theorem c6_submit_semantics (st : Channel) (m : Path × WriteData) :
    (st.receiverAlive = false →
      channelSend st m = (st, .droppedDisconnected)) ∧
    (st.receiverAlive = true → st.cap ≤ st.queue.length →
      channelSend st m = (st, .blocksUntilSpace)) ∧
    (st.receiverAlive = true → st.queue.length < st.cap →
      channelSend st m =
        ({ st with queue := st.queue ++ [m] }, .delivered)) := by
  refine ⟨?_, ?_, ?_⟩
  · intro h
    simp [channelSend, h]
  · intro h1 h2
    simp [channelSend, h1, h2]
  · intro h1 h2
    simp [channelSend, h1, Nat.not_le.mpr h2]

theorem c6_submit_semantics_witness :
    channelSend ⟨2, [], false⟩ (1, WriteData.append [1]) =
      (⟨2, [], false⟩, SendOutcome.droppedDisconnected) ∧
    channelSend ⟨1, [(0, WriteData.append [0])], true⟩
        (1, WriteData.append [1]) =
      (⟨1, [(0, WriteData.append [0])], true⟩,
        SendOutcome.blocksUntilSpace) :=
  ⟨(c6_submit_semantics ⟨2, [], false⟩ (1, WriteData.append [1])).1 rfl,
    (c6_submit_semantics ⟨1, [(0, WriteData.append [0])], true⟩
      (1, WriteData.append [1])).2.1 rfl (by decide)⟩

/-- C7: a drained request with a zero-length payload changes nothing: the
merge step leaves the per-path map untouched, and a cycle whose batch
starts with it produces exactly the state and the write events of the
cycle without it. -/
theorem c7_empty_fragment_noop (io : Path → WriteData → IoResult)
    (c : Cache) (f : Path) (d : WriteData)
    (tmp : List (Path × WriteData)) (he : d.is_empty = true) :
    mergeOne c f d = c ∧
    cycle io c ((f, d) :: tmp) = cycle io c tmp := by
  refine ⟨mergeOne_empty c f d he, ?_⟩
  unfold cycle
  rw [show mergeAll c ((f, d) :: tmp) = mergeAll (mergeOne c f d) tmp
      from rfl,
    mergeOne_empty c f d he]

theorem c7_empty_fragment_noop_witness :
    mergeOne [(1, WriteData.override [3])] 0 (WriteData.append []) =
      [(1, WriteData.override [3])] ∧
    cycle okIo [(1, WriteData.override [3])]
        ((0, WriteData.append []) :: [(1, WriteData.override [4])]) =
      cycle okIo [(1, WriteData.override [3])]
        [(1, WriteData.override [4])] :=
  c7_empty_fragment_noop okIo [(1, WriteData.override [3])] 0
    (WriteData.append []) [(1, WriteData.override [4])] (by decide)

/-- C8: a Pending Entry, once present, survives every later cycle — a
full merge-and-flush cycle keeps its key in the map — and the flush loop
never removes a key (it rewrites values in place, exactly like
`iter_mut`).  In the embedding the map appears only in the worker's
functions; the producer side (`channelSend`) never touches a `Cache`. -/
theorem c8_entries_never_removed (io : Path → WriteData → IoResult)
    (c : Cache) (tmp : List (Path × WriteData)) (p : Path)
    (h : (lookupC c p).isSome = true) :
    (lookupC (cycle io c tmp).1 p).isSome = true ∧
    (flushStep io c).1.map Prod.fst = c.map Prod.fst := by
  constructor
  · have h1 := lookupC_mergeAll_isSome tmp c p h
    show (lookupC (flushStep io (mergeAll c tmp)).1 p).isSome = true
    rw [flushStep_state_lookup]
    cases hl : lookupC (mergeAll c tmp) p with
    | none => rw [hl] at h1; simp at h1
    | some e => simp
  · exact flushStep_map_fst io c

theorem c8_entries_never_removed_witness :
    (lookupC (cycle failIo [(0, WriteData.append [1])]
        [(1, WriteData.override [2])]).1 0).isSome = true ∧
    (flushStep failIo [(0, WriteData.append [1])]).1.map Prod.fst =
      [(0, WriteData.append [1])].map Prod.fst :=
  c8_entries_never_removed failIo [(0, WriteData.append [1])]
    [(1, WriteData.override [2])] 0 (by decide)

/-- C9: an Append-variant entry with a non-empty buffer is flushed with
exactly one write call per cycle — whatever byte count that call reports
(even fewer than the buffer's length, as with `shortIo`) — and the buffer
is cleared afterwards, so the remaining bytes are never written again. -/
theorem c9_append_single_write_final (io : Path → WriteData → IoResult)
    (c : Cache) (p : Path) (b : Bytes)
    (hc : lookupC c p = some (.append b)) (hb : b ≠ [])
    (hnd : (c.map Prod.fst).Nodup) :
    eventsAt p (flushStep io c).2 = [⟨p, b, io p (.append b)⟩] ∧
    lookupC (flushStep io c).1 p = some (.append []) := by
  have he : (WriteData.append b).is_empty = false := by
    rw [is_empty_false_iff]
    exact hb
  constructor
  · have hev := eventsAt_flushStep_nodup io c p hnd
    rw [hc] at hev
    simpa [he] using hev
  · rw [flushStep_state_lookup, hc]
    simp [he, WriteData.clear]

theorem c9_append_single_write_final_witness :
    eventsAt 0 (flushStep shortIo [(0, WriteData.append [1, 2, 3])]).2 =
      [⟨0, [1, 2, 3], shortIo 0 (.append [1, 2, 3])⟩] ∧
    lookupC (flushStep shortIo [(0, WriteData.append [1, 2, 3])]).1 0 =
      some (.append []) :=
  c9_append_single_write_final shortIo [(0, WriteData.append [1, 2, 3])] 0
    [1, 2, 3] (by decide) (by decide) (by decide)

/-- C10: starting from the empty map, a zero-length fragment never
creates a Pending Entry, so the variant of every entry after any sequence
of cycles is the variant of the first non-empty fragment ever drained for
that path. -/
theorem c10_variant_matches_first_nonempty_fragment
    (io : Path → WriteData → IoResult)
    (cycles : List (List (Path × WriteData))) (p : Path) (e : WriteData)
    (h : lookupC (runCycles io [] cycles) p = some e) :
    ∃ d, firstFragFor p cycles.flatten = some d ∧
      e.variant = d.variant := by
  have hinv : VariantInv (runCycles io [] cycles) cycles.flatten := by
    have h0 := variantInv_runCycles io cycles [] [] variantInv_nil
    rwa [List.nil_append] at h0
  have hp := hinv p
  rw [h] at hp
  cases hfr : firstFragFor p cycles.flatten with
  | none => rw [hfr] at hp; simp at hp
  | some d0 =>
      rw [hfr] at hp
      exact ⟨d0, rfl, by simpa using hp⟩

theorem c10_variant_matches_first_nonempty_fragment_witness :
    ∃ d, firstFragFor 0
        [[(0, WriteData.override [])], [(0, WriteData.append [7])]].flatten
        = some d ∧
      (WriteData.append []).variant = d.variant :=
  c10_variant_matches_first_nonempty_fragment okIo
    [[(0, WriteData.override [])], [(0, WriteData.append [7])]] 0
    (WriteData.append []) (by decide)

end WriteLocal
